import Mathlib

/-!
Shallow embedding of the energy-consumption logger (`core.py`).

The program parses raw text lines with the anchored pattern

  `(?:[>]\s)?([0-9]\x7b,10\x7d)\s+(TurnOff|(Delta\s+([+-](?:\d+\.\d+|\d+))))`

into `EnergyConsumptionLog` records, deduplicates them in a dict keyed by
the canonical string `str(log)`, and integrates energy over the
key-sorted sequence.  Numbers are modelled by `ℚ` (the concrete values the
claims touch are all dyadic, where Python float arithmetic is exact), and
Python's `str(float(...))` rendering is modelled on the normalized decimal
digit strings produced by the matcher.
-/

/-- ASCII whitespace characters accepted by the regex token `\s`. -/
def isPySpace (c : Char) : Bool :=
  c = ' ' || c = '\t' || c = '\n' || c = '\r' || c = '\x0b' || c = '\x0c'

/-- The token matched after the timestamp: either the literal `TurnOff`,
or `Delta`, inner whitespace, a sign and a numeral (integer part plus
optional fractional part). -/
inductive EnergyTok where
  | turnOff : EnergyTok
  | delta (ws2 : List Char) (sign : Char) (ipart : List Char)
      (fpart : Option (List Char)) : EnergyTok
deriving DecidableEq, Repr

/-- Result of a successful anchored match of `ENERGY_LOG_REGEX`:
all matched components plus the unconsumed tail of the line. -/
structure RegexMatch where
  marker : Option Char
  tsDigits : List Char
  ws1 : List Char
  tok : EnergyTok
  rest : List Char
deriving DecidableEq, Repr

/-- Characters consumed by the token part of the match. -/
def EnergyTok.build : EnergyTok → List Char
  | .turnOff => "TurnOff".data
  | .delta ws2 sign ipart fpart =>
      "Delta".data ++ ws2 ++ sign ::
        (ipart ++ (match fpart with | none => [] | some f => '.' :: f))

/-- The full line a match was taken from: marker, timestamp digits,
whitespace, token, then the unconsumed rest. -/
def RegexMatch.build (m : RegexMatch) : List Char :=
  (match m.marker with | none => [] | some c => ['>', c]) ++
    m.tsDigits ++ m.ws1 ++ m.tok.build ++ m.rest

/-- The body of the regex after the optional marker: timestamp digits
(at most ten), mandatory whitespace, then the token alternation.
Greedy runs are maximal spans, mirroring the backtracking outcome of the
Python pattern. -/
def matchBody (cs : List Char) : Option RegexMatch :=
  let ds := cs.takeWhile Char.isDigit
  let r1 := cs.dropWhile Char.isDigit
  if 10 < ds.length then none
  else
    let ws := r1.takeWhile isPySpace
    let r2 := r1.dropWhile isPySpace
    if ws.isEmpty then none
    else if r2.take 7 = "TurnOff".data then
      some ⟨none, ds, ws, .turnOff, r2.drop 7⟩
    else if r2.take 5 = "Delta".data then
      let r3 := r2.drop 5
      let ws2 := r3.takeWhile isPySpace
      let r4 := r3.dropWhile isPySpace
      if ws2.isEmpty then none
      else
        match r4 with
        | [] => none
        | c :: r5 =>
          if c = '+' ∨ c = '-' then
            let d1 := r5.takeWhile Char.isDigit
            let r6 := r5.dropWhile Char.isDigit
            if d1.isEmpty then none
            else
              match r6 with
              | '.' :: r7 =>
                let d2 := r7.takeWhile Char.isDigit
                if d2.isEmpty then some ⟨none, ds, ws, .delta ws2 c d1 none, r6⟩
                else some ⟨none, ds, ws, .delta ws2 c d1 (some d2),
                  r7.dropWhile Char.isDigit⟩
              | _ => some ⟨none, ds, ws, .delta ws2 c d1 none, r6⟩
          else none
    else none

/-- Embeds `ENERGY_LOG_REGEX.match`: the optional marker `[>]\s` is tried first;
if the remainder fails the match is retried without the marker. -/
def matchEnergy (s : List Char) : Option RegexMatch :=
  match s with
  | a :: c :: r =>
    if a = '>' ∧ isPySpace c then
      match matchBody r with
      | some m => some { m with marker := some c }
      | none => matchBody s
    else matchBody s
  | _ => matchBody s

/-- Numeric value of a digit character. -/
def digitVal (c : Char) : ℕ := c.toNat - 48

/-- Value of a digit string read in base ten. -/
def digitsToNat (ds : List Char) : ℕ := ds.foldl (fun a c => 10 * a + digitVal c) 0

/-- Value of `float(sign ++ ipart ++ "." ++ fpart)` as an exact rational. -/
def numValue (sign : Char) (ipart : List Char) (fpart : Option (List Char)) : ℚ :=
  let mag : ℚ := (digitsToNat ipart : ℚ) +
    (match fpart with
     | none => 0
     | some f => (digitsToNat f : ℚ) / ((10 : ℚ) ^ f.length))
  if sign = '-' then -mag else mag

/-- Drop leading `'0'` digits, keeping a single zero for the all-zero string. -/
def stripLeadZeros (ds : List Char) : List Char :=
  match ds.dropWhile (fun c => c = '0') with
  | [] => ['0']
  | r => r

/-- Drop trailing `'0'` digits. -/
def stripTrailZeros (ds : List Char) : List Char :=
  (ds.reverse.dropWhile (fun c => c = '0')).reverse

/-- Renders `str(datetime.fromtimestamp(float(ds)).timestamp())`: the integral
epoch value rendered as a Python float, e.g. `"1544206563.0"`. -/
def renderTs (ds : List Char) : String :=
  String.mk (stripLeadZeros ds) ++ ".0"

/-- Renders `str(float(sign ++ ipart ++ "." ++ fpart))` for a nonzero value:
normalized integer part, `'.'`, normalized fractional part. -/
def renderNum (sign : Char) (ipart : List Char) (fpart : Option (List Char)) : String :=
  let i := stripLeadZeros ipart
  let f := match fpart with
    | none => ['0']
    | some fl =>
      match stripTrailZeros fl with
      | [] => ['0']
      | r => r
  (if sign = '-' then "-" else "") ++ String.mk i ++ "." ++ String.mk f

/-- One parsed energy log: epoch timestamp in seconds and the stored
delta, both exact rationals. -/
structure EnergyConsumptionLog where
  timestamp : ℚ
  delta_consumption : ℚ
deriving DecidableEq, Repr

/-- Embeds `EnergyConsumptionLog.__init__`: the delta is kept only when it is
truthy (nonzero, non-`None`) and the consumer is turned on; otherwise the
stored delta is `0`. -/
def EnergyConsumptionLog.init (timestamp : ℚ) (delta : Option ℚ)
    (turned_on : Bool) : EnergyConsumptionLog :=
  match delta with
  | some d => if d ≠ 0 ∧ turned_on then ⟨timestamp, d⟩ else ⟨timestamp, 0⟩
  | none => ⟨timestamp, 0⟩

/-- Boolean list-prefix test. -/
def isPrefixList : List Char → List Char → Bool
  | [], _ => true
  | _ :: _, [] => false
  | a :: as, b :: bs => a = b && isPrefixList as bs

/-- Python's substring test `pat in s`. -/
def containsSub (pat : List Char) : List Char → Bool
  | [] => isPrefixList pat []
  | b :: bs => isPrefixList pat (b :: bs) || containsSub pat bs

/-- The one exception class the program raises (`ValueError`). -/
inductive PyError where
  | valueError : PyError
deriving DecidableEq, Repr

/-- Embeds `EnergyConsumptionLogger._process_energy_log`: anchored regex match,
`float` conversion of the timestamp group (raising `ValueError` on the
empty group), then branching on the substrings `"TurnOff"` / `"Delta"`
of the whole raw line.  Returns the canonical-key / record pair. -/
def processChars (raw : List Char) :
    Except PyError (Option (String × EnergyConsumptionLog)) :=
  match matchEnergy raw with
  | none => .ok none
  | some m =>
    if m.tsDigits.isEmpty then .error .valueError
    else
      let ts : ℚ := (digitsToNat m.tsDigits : ℚ)
      if containsSub "TurnOff".data raw then
        .ok (some (renderTs m.tsDigits ++ ":" ++ "0",
          EnergyConsumptionLog.init ts none false))
      else if containsSub "Delta".data raw then
        match m.tok with
        | .delta _ sign ipart fpart =>
          let v := numValue sign ipart fpart
          .ok (some (renderTs m.tsDigits ++ ":" ++
              (if v = 0 then "0" else renderNum sign ipart fpart),
            EnergyConsumptionLog.init ts (some v) true))
        | .turnOff => .error .valueError
      else .ok none

/-- Runs `_process_energy_log` on a raw string. -/
def process_energy_log (raw : String) :
    Except PyError (Option (String × EnergyConsumptionLog)) :=
  processChars raw.data

/-- The dict `_energy_consumption_logs`: canonical key to record,
in insertion order. -/
abbrev LoggerState := List (String × EnergyConsumptionLog)

/-- Embeds `dict.update` with a single key: replace in place or append. -/
def upsert : LoggerState → String → EnergyConsumptionLog → LoggerState
  | [], k, v => [(k, v)]
  | (k', v') :: rest, k, v =>
      if k' = k then (k, v) :: rest else (k', v') :: upsert rest k v

/-- Embeds `EnergyConsumptionLogger.add_log`. -/
def add_log (st : LoggerState) (raw : String) : Except PyError LoggerState :=
  match process_energy_log raw with
  | .error e => .error e
  | .ok none => .ok st
  | .ok (some (k, v)) => .ok (upsert st k v)

/-- Embeds `EnergyConsumptionLogger.batch_add_logs`. -/
def batch_add_logs (st : LoggerState) (raws : List String) :
    Except PyError LoggerState :=
  raws.foldlM add_log st

/-- Python string `≤` on the canonical keys: lexicographic by code point. -/
def lexLe : List Char → List Char → Bool
  | [], _ => true
  | _ :: _, [] => false
  | a :: as, b :: bs => if a < b then true else if a = b then lexLe as bs else false

/-- Key comparison used by `sorted` over the dict keys. -/
def keyLe (a b : String) : Prop := lexLe a.data b.data = true

instance : DecidableRel keyLe := fun a b => by
  unfold keyLe; infer_instance

/-- Embeds `sorted(self._energy_consumption_logs.keys())`. -/
def sortedKeys (st : LoggerState) : List String :=
  (st.map Prod.fst).insertionSort keyLe

/-- Dict lookup. -/
def lookupKey : LoggerState → String → Option EnergyConsumptionLog
  | [], _ => none
  | (k', v') :: rest, k => if k' = k then some v' else lookupKey rest k

/-- Embeds `EnergyConsumptionLogger.get_logs`: records listed by ascending key. -/
def get_logs (st : LoggerState) : List EnergyConsumptionLog :=
  (sortedKeys st).filterMap (lookupKey st)

/-- Embeds `EnergyConsumer`: kind label, maximum consumption, current fractional
consumption and the embedded logger state. -/
structure EnergyConsumer where
  kind : String
  max_consumption : ℚ
  current_consumption : ℚ
  energy_consumption_logger : LoggerState
deriving DecidableEq, Repr

/-- Embeds `EnergyConsumer.__init__`: rejects a negative `max_consumption` with a
`ValueError`, otherwise starts at consumption level `1` with an empty
logger. -/
def EnergyConsumer.init (kind : String) (max_consumption : ℚ) :
    Except PyError EnergyConsumer :=
  if max_consumption < 0 then .error .valueError
  else .ok ⟨kind, max_consumption, 1, []⟩

/-- Embeds `EnergyConsumer.set_consumption`. -/
def set_consumption (c : EnergyConsumer) (delta_change : ℚ) : EnergyConsumer :=
  if delta_change < 0 then
    { c with current_consumption := max 0 (c.current_consumption + delta_change) }
  else if 0 < delta_change then
    { c with current_consumption := min 1 (c.current_consumption + delta_change) }
  else
    { c with current_consumption := 0 }

/-- One iteration of the estimator loop: elapsed hours between the pair,
apply the earlier event's delta, accumulate
`hours × current_consumption × max_consumption`. -/
def estimate_step (acc : ℚ × EnergyConsumer)
    (p : EnergyConsumptionLog × EnergyConsumptionLog) : ℚ × EnergyConsumer :=
  let hours := (p.2.timestamp - p.1.timestamp) / 60 / 60
  let c2 := set_consumption acc.2 p.1.delta_consumption
  (acc.1 + hours * (c2.current_consumption * c2.max_consumption), c2)

/-- Embeds `EnergyEstimator.estimate_energy`: walk adjacent pairs of the ordered
logs.  Returns the total and the mutated consumer. -/
def estimate_energy (c : EnergyConsumer) : ℚ × EnergyConsumer :=
  let logs := get_logs c.energy_consumption_logger
  (logs.zip logs.tail).foldl estimate_step (0, c)

/-- Well-formedness of the token part of a match, as the matcher
produces it: nonempty whitespace, a `+`/`-` sign, nonempty digit runs. -/
def wfTok : EnergyTok → Prop
  | .turnOff => True
  | .delta ws2 sign ipart fpart =>
      ws2 ≠ [] ∧ (∀ c ∈ ws2, isPySpace c = true) ∧ (sign = '+' ∨ sign = '-') ∧
      ipart ≠ [] ∧ (∀ c ∈ ipart, c.isDigit = true) ∧
      (∀ f, fpart = some f → f ≠ [] ∧ (∀ c ∈ f, c.isDigit = true))

/-- Well-formedness of a whole match: every component drawn from its
character class, at most ten timestamp digits, nonempty separator. -/
def wf (m : RegexMatch) : Prop :=
  (∀ c, m.marker = some c → isPySpace c = true) ∧
  (∀ c ∈ m.tsDigits, c.isDigit = true) ∧ m.tsDigits.length ≤ 10 ∧
  m.ws1 ≠ [] ∧ (∀ c ∈ m.ws1, isPySpace c = true) ∧ wfTok m.tok

/-- The head of the list, if any, is not a decimal digit. -/
def noDigitHead : List Char → Prop
  | [] => True
  | d :: _ => d.isDigit = false

/-- A trailing text cannot extend the matched numeral: it does not start
with a digit, and when the numeral had no fractional part it does not
start with `'.'` followed by a digit. -/
def restOk : EnergyTok → List Char → Prop
  | .turnOff, _ => True
  | .delta _ _ _ fpart, rest =>
      noDigitHead rest ∧
      (fpart = none →
        (match rest with
         | '.' :: r7 => noDigitHead r7
         | _ => True))

/-! ## Basic facts about the consumer model -/

theorem set_consumption_frame (c : EnergyConsumer) (d : ℚ) :
    (set_consumption c d).kind = c.kind ∧
    (set_consumption c d).max_consumption = c.max_consumption ∧
    (set_consumption c d).energy_consumption_logger = c.energy_consumption_logger := by
  unfold set_consumption
  split
  · exact ⟨rfl, rfl, rfl⟩
  split
  · exact ⟨rfl, rfl, rfl⟩
  · exact ⟨rfl, rfl, rfl⟩

theorem set_consumption_bounds (c : EnergyConsumer) (d : ℚ)
    (h0 : 0 ≤ c.current_consumption) (h1 : c.current_consumption ≤ 1) :
    0 ≤ (set_consumption c d).current_consumption ∧
    (set_consumption c d).current_consumption ≤ 1 := by
  unfold set_consumption
  split
  · rename_i hneg
    refine ⟨le_max_left _ _, ?_⟩
    simp only [max_le_iff]
    exact ⟨by norm_num, by linarith⟩
  split
  · rename_i hpos
    refine ⟨?_, min_le_left _ _⟩
    simp only [le_min_iff]
    exact ⟨by norm_num, by linarith⟩
  · exact ⟨le_refl 0, by norm_num⟩

theorem foldl_set_consumption_bounds (ds : List ℚ) :
    ∀ c : EnergyConsumer, 0 ≤ c.current_consumption → c.current_consumption ≤ 1 →
      0 ≤ (ds.foldl set_consumption c).current_consumption ∧
      (ds.foldl set_consumption c).current_consumption ≤ 1 := by
  induction ds with
  | nil => exact fun c h0 h1 => ⟨h0, h1⟩
  | cons d tl ih =>
    intro c h0 h1
    have h := set_consumption_bounds c d h0 h1
    simpa using ih (set_consumption c d) h.1 h.2

theorem foldl_estimate_frame (l : List (EnergyConsumptionLog × EnergyConsumptionLog)) :
    ∀ acc : ℚ × EnergyConsumer,
      (l.foldl estimate_step acc).2.kind = acc.2.kind ∧
      (l.foldl estimate_step acc).2.max_consumption = acc.2.max_consumption ∧
      (l.foldl estimate_step acc).2.energy_consumption_logger =
        acc.2.energy_consumption_logger := by
  induction l with
  | nil => exact fun acc => ⟨rfl, rfl, rfl⟩
  | cons p tl ih =>
    intro acc
    have hstep := set_consumption_frame acc.2 p.1.delta_consumption
    have h := ih (estimate_step acc p)
    refine ⟨?_, ?_, ?_⟩
    · rw [List.foldl_cons] at *
      exact h.1.trans hstep.1
    · rw [List.foldl_cons] at *
      exact h.2.1.trans hstep.2.1
    · rw [List.foldl_cons] at *
      exact h.2.2.trans hstep.2.2

/-! ## Claim theorems: consumer model -/

/-- C5: a zero delta always forces the consumption level to `0`,
regardless of the prior level, and the delta carried by an off-event
(which is always `0`) has the same effect. -/
theorem C5_zero_delta_forces_off (c : EnergyConsumer) (ts : ℚ) :
    (set_consumption c 0).current_consumption = 0 ∧
    (set_consumption c
        (EnergyConsumptionLog.init ts none false).delta_consumption).current_consumption
      = 0 := by
  constructor <;> simp [set_consumption, EnergyConsumptionLog.init]

/-- C6: starting from the initial level `1` at construction, every finite
sequence of `set_consumption` calls keeps the level within `[0, 1]`. -/
theorem C6_bounds_invariant (kind : String) (mc : ℚ) (c : EnergyConsumer)
    (ds : List ℚ) (h : EnergyConsumer.init kind mc = .ok c) :
    0 ≤ (ds.foldl set_consumption c).current_consumption ∧
    (ds.foldl set_consumption c).current_consumption ≤ 1 := by
  unfold EnergyConsumer.init at h
  split at h
  · exact absurd h (by simp)
  · have hc : c = ⟨kind, mc, 1, []⟩ := by
      cases h
      rfl
    subst hc
    exact foldl_set_consumption_bounds ds _ (by norm_num) (by norm_num)

theorem C6_bounds_invariant_witness :
    0 ≤ (([3, -5, 0] : List ℚ).foldl set_consumption
        ⟨"lightbulb", 5, 1, []⟩).current_consumption ∧
    (([3, -5, 0] : List ℚ).foldl set_consumption
        ⟨"lightbulb", 5, 1, []⟩).current_consumption ≤ 1 :=
  C6_bounds_invariant "lightbulb" 5 ⟨"lightbulb", 5, 1, []⟩ [3, -5, 0] (by rfl)

/-- C10: the estimator only mutates `current_consumption`: the kind, the
maximum consumption and the stored logs are unchanged by
`estimate_energy`. -/
theorem C10_estimator_frame (c : EnergyConsumer) :
    (estimate_energy c).2.kind = c.kind ∧
    (estimate_energy c).2.max_consumption = c.max_consumption ∧
    (estimate_energy c).2.energy_consumption_logger =
      c.energy_consumption_logger := by
  unfold estimate_energy
  exact foldl_estimate_frame _ (0, c)

/-- C3 counterexample: constructing with `max_consumption = 0` does not
raise; it returns the consumer, refuting "construction raises for every
`max_consumption ≤ 0`". -/
theorem C3_zero_accepted :
    EnergyConsumer.init "lightbulb" 0 = .ok ⟨"lightbulb", 0, 1, []⟩ := by rfl

/-- C3 (amended): construction raises exactly for a negative
`max_consumption`; zero and positive values are accepted and produce the
consumer with level `1` and an empty logger. -/
theorem C3_negative_rejected (kind : String) (mc : ℚ) :
    (mc < 0 → EnergyConsumer.init kind mc = .error .valueError) ∧
    (0 ≤ mc → EnergyConsumer.init kind mc = .ok ⟨kind, mc, 1, []⟩) := by
  constructor
  · intro h
    unfold EnergyConsumer.init
    rw [if_pos h]
  · intro h
    unfold EnergyConsumer.init
    rw [if_neg (not_lt.2 h)]

theorem C3_negative_rejected_witness :
    EnergyConsumer.init "heater" (-1) = .error .valueError ∧
    EnergyConsumer.init "lightbulb" 0 = .ok ⟨"lightbulb", 0, 1, []⟩ :=
  ⟨(C3_negative_rejected "heater" (-1)).1 (by norm_num),
   (C3_negative_rejected "lightbulb" 0).2 (by norm_num)⟩

/-! ## Store lemmas -/

theorem upsert_idem (st : LoggerState) (k : String) (v : EnergyConsumptionLog) :
    upsert (upsert st k v) k v = upsert st k v := by
  induction st with
  | nil => simp [upsert]
  | cons p tl ih =>
    by_cases h : p.1 = k
    · simp [upsert, h]
    · simp [upsert, h, ih]

theorem upsert_keys (st : LoggerState) (k : String) (v : EnergyConsumptionLog) :
    (upsert st k v).map Prod.fst =
      if k ∈ st.map Prod.fst then st.map Prod.fst else st.map Prod.fst ++ [k] := by
  induction st with
  | nil => simp [upsert]
  | cons p tl ih =>
    by_cases h : p.1 = k
    · simp [upsert, h]
    · simp only [upsert, if_neg h, List.map_cons, ih]
      by_cases hmem : k ∈ tl.map Prod.fst
      · simp [hmem, Ne.symm h]
      · simp [hmem, Ne.symm h]

/-! ## Claim theorems: logger -/

/-- C1 (code bug): the line `" TurnOff"` is matched with an empty
timestamp group, and `float("")` raises `ValueError` out of `add_log`,
so a malformed line is not always silently dropped. -/
theorem C1_add_log_raises (st : LoggerState) :
    process_energy_log " TurnOff" = .error .valueError ∧
    add_log st " TurnOff" = .error .valueError := by
  constructor
  · rfl
  · unfold add_log
    rfl

/-- C2 counterexample: `"5 Delta +0.5"` parses to a delta event with
delta `1/2`, but appending the trailing text `" TurnOff"` after the same
well-formed matched prefix yields an off-event with delta `0` and a
different canonical key, so trailing text is not always ignored. -/
theorem C2_trailing_turnoff_flips :
    process_energy_log "5 Delta +0.5" = .ok (some ("5.0:0.5", ⟨5, 1/2⟩)) ∧
    process_energy_log "5 Delta +0.5 TurnOff" = .ok (some ("5.0:0", ⟨5, 0⟩)) ∧
    (("5.0:0.5", (⟨5, 1/2⟩ : EnergyConsumptionLog)) ≠
      ("5.0:0", (⟨5, 0⟩ : EnergyConsumptionLog))) := by
  refine ⟨by with_unfolding_all rfl, by with_unfolding_all rfl, by decide⟩

/-- C4: scenario B end to end: with `max_consumption = 5`, batch-adding
the raw lines for `t0` TurnOff, `t0+1h` Delta `+0.5`, `t0+2h` Delta
`-0.25` twice (deduplicated), `t0+2.5h` Delta `+0.75` and `t0+3h`
TurnOff yields the estimate `45/8 = 5.625`. -/
theorem C4_scenario_B :
    (EnergyConsumer.init "lightbulb" 5).bind (fun c =>
      (batch_add_logs c.energy_consumption_logger
        ["1544206800 TurnOff", "1544210400 Delta +0.5",
         "1544214000 Delta -0.25", "1544214000 Delta -0.25",
         "1544215800 Delta +0.75", "1544217600 TurnOff"]).map
        (fun st =>
          (estimate_energy { c with energy_consumption_logger := st }).1))
      = .ok (45 / 8 : ℚ) := by
  with_unfolding_all rfl

/-- C8: adding the same raw line twice leaves the store exactly as adding
it once, and when the line parses to key `k`, the store holds exactly one
record under `k`. -/
theorem C8_dedup_idempotent (st : LoggerState) (line : String) :
    ((add_log st line).bind (fun st2 => add_log st2 line) = add_log st line) ∧
    (∀ k v, (st.map Prod.fst).Nodup →
      process_energy_log line = .ok (some (k, v)) →
      add_log st line = .ok (upsert st k v) ∧
      ((upsert st k v).map Prod.fst).count k = 1) := by
  constructor
  · unfold add_log
    match h : process_energy_log line with
    | .error e => rfl
    | .ok none => rfl
    | .ok (some (k, v)) =>
      simp only [Except.bind]
      rw [upsert_idem]
  · intro k v hnd hline
    constructor
    · unfold add_log
      rw [hline]
    · rw [upsert_keys]
      by_cases hmem : k ∈ st.map Prod.fst
      · rw [if_pos hmem]
        exact List.count_eq_one_of_mem hnd hmem
      · rw [if_neg hmem]
        simp [List.count_append, List.count_eq_zero_of_not_mem hmem]

theorem C8_dedup_idempotent_witness :
    add_log [] "5 TurnOff" = .ok (upsert [] "5.0:0" ⟨5, 0⟩) ∧
    ((upsert ([] : LoggerState) "5.0:0" ⟨5, 0⟩).map Prod.fst).count "5.0:0" = 1 :=
  (C8_dedup_idempotent [] "5 TurnOff").2 "5.0:0" ⟨5, 0⟩ (by simp)
    (by with_unfolding_all rfl)

/-! ## Lexicographic key order -/

theorem lexLe_total (a : List Char) : ∀ b, lexLe a b = true ∨ lexLe b a = true := by
  induction a with
  | nil => intro b; left; rfl
  | cons x xs ih =>
    intro b
    cases b with
    | nil => right; rfl
    | cons y ys =>
      simp only [lexLe]
      rcases lt_trichotomy x y with h | h | h
      · left
        rw [if_pos h]
      · subst h
        rw [if_neg (lt_irrefl x), if_pos rfl, if_neg (lt_irrefl x), if_pos rfl]
        exact ih ys
      · right
        rw [if_pos h]

theorem lexLe_trans :
    ∀ a b c : List Char, lexLe a b = true → lexLe b c = true → lexLe a c = true := by
  intro a
  induction a with
  | nil => intro b c _ _; rfl
  | cons x xs ih =>
    intro b c hab hbc
    cases b with
    | nil => simp [lexLe] at hab
    | cons y ys =>
      cases c with
      | nil => simp [lexLe] at hbc
      | cons z zs =>
        simp only [lexLe] at hab hbc ⊢
        rcases lt_trichotomy x y with hxy | hxy | hxy
        · have hyz : y ≤ z := by
            by_contra hlt
            rw [if_neg (not_lt_of_gt (lt_of_not_ge hlt)),
              if_neg (ne_of_gt (lt_of_not_ge hlt))] at hbc
            exact Bool.noConfusion hbc
          rw [if_pos (lt_of_lt_of_le hxy hyz)]
        · subst hxy
          rw [if_neg (lt_irrefl x), if_pos rfl] at hab
          rcases lt_trichotomy x z with hxz | hxz | hxz
          · rw [if_pos hxz]
          · subst hxz
            rw [if_neg (lt_irrefl x), if_pos rfl] at hbc ⊢
            exact ih ys zs hab hbc
          · rw [if_neg (not_lt_of_gt hxz), if_neg (ne_of_gt hxz)] at hbc
            exact Bool.noConfusion hbc
        · rw [if_neg (not_lt_of_gt hxy), if_neg (ne_of_gt hxy)] at hab
          exact Bool.noConfusion hab

instance : IsTotal String keyLe :=
  ⟨fun a b => lexLe_total a.data b.data⟩

instance : IsTrans String keyLe :=
  ⟨fun a b c => lexLe_trans a.data b.data c.data⟩

/-- C7: `get_logs` enumerates the stored records along the key list
sorted non-decreasingly by lexicographic string comparison, and that
sorted key list is a permutation of all stored keys. -/
theorem C7_get_logs_sorted (st : LoggerState) :
    (sortedKeys st).Sorted keyLe ∧
    (sortedKeys st).Perm (st.map Prod.fst) ∧
    get_logs st = (sortedKeys st).filterMap (lookupKey st) := by
  refine ⟨?_, ?_, rfl⟩
  · exact List.sorted_insertionSort keyLe _
  · exact List.perm_insertionSort keyLe _

/-! ## Span lemmas for the matcher -/

theorem takeWhile_append_all {α : Type} {p : α → Bool} {l : List α} (r : List α)
    (h : ∀ a ∈ l, p a = true) :
    (l ++ r).takeWhile p = l ++ r.takeWhile p := by
  induction l with
  | nil => simp
  | cons a tl ih =>
    have ha : p a = true := h a (List.mem_cons_self a tl)
    simp only [List.cons_append, List.takeWhile_cons_of_pos ha]
    rw [ih (fun b hb => h b (List.mem_cons_of_mem a hb))]

theorem dropWhile_append_all {α : Type} {p : α → Bool} {l : List α} (r : List α)
    (h : ∀ a ∈ l, p a = true) :
    (l ++ r).dropWhile p = r.dropWhile p := by
  induction l with
  | nil => simp
  | cons a tl ih =>
    have ha : p a = true := h a (List.mem_cons_self a tl)
    simp only [List.cons_append, List.dropWhile_cons_of_pos ha]
    exact ih (fun b hb => h b (List.mem_cons_of_mem a hb))

theorem matchBody_long_digits (ds rest : List Char)
    (hd : ∀ c ∈ ds, c.isDigit = true) (hl : 10 < ds.length) :
    matchBody (ds ++ rest) = none := by
  simp only [matchBody, takeWhile_append_all rest hd]
  rw [if_pos]
  simp only [List.length_append]
  omega

theorem matchBody_gt_head (l : List Char) : matchBody ('>' :: l) = none := by
  simp only [matchBody]
  rw [List.takeWhile_cons_of_neg (by decide), List.dropWhile_cons_of_neg (by decide),
    List.takeWhile_cons_of_neg (by decide)]
  rfl

/-- C9: a line whose leading timestamp field has more than ten digits,
with or without the optional `"> "` marker, never matches: the parser
rejects it and `add_log` leaves the store untouched. -/
theorem C9_long_timestamp_rejected (ds rest : List Char) (st : LoggerState)
    (c : Char) (hd : ∀ ch ∈ ds, ch.isDigit = true) (hl : 10 < ds.length)
    (hc : isPySpace c = true) :
    matchEnergy (ds ++ rest) = none ∧
    matchEnergy ('>' :: c :: (ds ++ rest)) = none ∧
    processChars (ds ++ rest) = .ok none ∧
    processChars ('>' :: c :: (ds ++ rest)) = .ok none ∧
    add_log st (String.mk (ds ++ rest)) = .ok st ∧
    add_log st (String.mk ('>' :: c :: (ds ++ rest))) = .ok st := by
  have hbody : matchBody (ds ++ rest) = none := matchBody_long_digits ds rest hd hl
  have h1 : matchEnergy (ds ++ rest) = none := by
    match hds : ds with
    | [] => simp [hds] at hl
    | d :: ds2 =>
      have hne : d ≠ '>' := by
        intro he
        have := hd d (List.mem_cons_self d ds2)
        rw [he] at this
        exact Bool.noConfusion this
      match ds2, rest with
      | [], [] => simp at hl
      | [], r0 :: rtl =>
        simp only [List.cons_append, List.nil_append, matchEnergy]
        rw [if_neg (fun hand => hne hand.1)]
        simpa using hbody
      | d2 :: dtl, r =>
        simp only [List.cons_append, matchEnergy]
        rw [if_neg (fun hand => hne hand.1)]
        simpa using hbody
  have h2 : matchEnergy ('>' :: c :: (ds ++ rest)) = none := by
    simp only [matchEnergy]
    rw [if_pos ⟨trivial, hc⟩, hbody, matchBody_gt_head]
  refine ⟨h1, h2, ?_, ?_, ?_, ?_⟩
  · simp only [processChars, h1]
  · simp only [processChars, h2]
  · simp only [add_log, process_energy_log, String.mk]
    simp only [processChars, h1]
  · simp only [add_log, process_energy_log, String.mk]
    simp only [processChars, h2]

theorem C9_long_timestamp_rejected_witness :
    matchEnergy ("12345678901".data ++ " TurnOff".data) = none ∧
    matchEnergy ('>' :: ' ' :: ("12345678901".data ++ " TurnOff".data)) = none ∧
    processChars ("12345678901".data ++ " TurnOff".data) = .ok none ∧
    processChars ('>' :: ' ' :: ("12345678901".data ++ " TurnOff".data)) = .ok none ∧
    add_log [] (String.mk ("12345678901".data ++ " TurnOff".data)) = .ok [] ∧
    add_log [] (String.mk ('>' :: ' ' :: ("12345678901".data ++ " TurnOff".data)))
      = .ok [] :=
  C9_long_timestamp_rejected "12345678901".data " TurnOff".data [] ' '
    (by decide) (by decide) (by decide)

/-! ## Matcher reconstruction and soundness (for C2) -/

theorem pySpace_not_digit {ch : Char} (h : isPySpace ch = true) : ch.isDigit = false := by
  simp only [isPySpace, Bool.or_eq_true, decide_eq_true_eq] at h
  rcases h with ((((h | h) | h) | h) | h) | h <;> subst h <;> rfl

theorem dropWhile_cons_head {α : Type} {p : α → Bool} {l : List α} {a : α} {t : List α}
    (h : l.dropWhile p = a :: t) : p a = false := by
  induction l with
  | nil => simp at h
  | cons x xs ih =>
    by_cases hx : p x = true
    · rw [List.dropWhile_cons_of_pos hx] at h
      exact ih h
    · rw [List.dropWhile_cons_of_neg hx] at h
      cases h
      exact Bool.eq_false_iff.mpr hx

theorem takeWhile_nil_head {α : Type} {p : α → Bool} {a : α} {t : List α}
    (h : (a :: t).takeWhile p = []) : p a = false := by
  by_cases ha : p a = true
  · rw [List.takeWhile_cons_of_pos ha] at h
    exact List.noConfusion h
  · exact Bool.eq_false_iff.mpr ha

theorem ne_nil_of_not_isEmpty {α : Type} {l : List α} (h : ¬ l.isEmpty = true) :
    l ≠ [] := by
  intro hn
  rw [hn] at h
  exact h rfl

theorem noDigitHead_dropWhile (l : List Char) :
    noDigitHead (l.dropWhile Char.isDigit) := by
  cases hre : l.dropWhile Char.isDigit with
  | nil => trivial
  | cons a t => exact dropWhile_cons_head hre

theorem noDigitHead_of_takeWhile_nil (l : List Char)
    (h : l.takeWhile Char.isDigit = []) : noDigitHead l := by
  cases l with
  | nil => trivial
  | cons a t => exact takeWhile_nil_head h

theorem matchBody_some (cs : List Char) (m : RegexMatch) (h : matchBody cs = some m) :
    m.marker = none ∧
    cs = m.tsDigits ++ m.ws1 ++ m.tok.build ++ m.rest ∧
    wf m ∧ restOk m.tok m.rest := by
  simp only [matchBody] at h
  split at h
  · exact Option.noConfusion h
  rename_i hlen
  split at h
  · exact Option.noConfusion h
  rename_i hwsne
  split at h
  case isTrue hturn =>
    cases h
    dsimp only
    refine ⟨rfl, ?_, ?_, trivial⟩
    · conv_lhs => rw [← List.takeWhile_append_dropWhile (p := Char.isDigit) (l := cs)]
      simp only [List.append_assoc]
      congr 1
      conv_lhs => rw [← List.takeWhile_append_dropWhile (p := isPySpace)
        (l := cs.dropWhile Char.isDigit)]
      congr 1
      conv_lhs => rw [← List.take_append_drop 7
        ((cs.dropWhile Char.isDigit).dropWhile isPySpace)]
      rw [hturn]
      rfl
    · exact ⟨by simp, fun c hc => List.mem_takeWhile_imp hc, Nat.le_of_not_lt hlen,
        ne_nil_of_not_isEmpty hwsne, fun c hc => List.mem_takeWhile_imp hc, trivial⟩
  case isFalse hturn =>
  split at h
  case isFalse => exact Option.noConfusion h
  case isTrue hdelta =>
  split at h
  · exact Option.noConfusion h
  rename_i hws2ne
  split at h
  · exact Option.noConfusion h
  rename_i sgn r5tl heqr4
  split at h
  case isFalse => exact Option.noConfusion h
  case isTrue hsign =>
  split at h
  · exact Option.noConfusion h
  rename_i hd1ne
  split at h
  case h_1 r7 hr6 =>
    split at h
    case isTrue hd2nil =>
      cases h
      dsimp only
      have hd2 : List.takeWhile Char.isDigit r7 = [] := by
        simpa using hd2nil
      refine ⟨rfl, ?_, ?_, ?_⟩
      · simp only [EnergyTok.build]
        conv_lhs => rw [← List.takeWhile_append_dropWhile (p := Char.isDigit) (l := cs)]
        simp only [List.append_assoc]
        congr 1
        conv_lhs => rw [← List.takeWhile_append_dropWhile (p := isPySpace)
          (l := cs.dropWhile Char.isDigit)]
        congr 1
        conv_lhs => rw [← List.take_append_drop 5
          ((cs.dropWhile Char.isDigit).dropWhile isPySpace)]
        rw [hdelta]
        simp only [List.append_assoc, List.cons_append, List.append_nil]
        conv_lhs => rw [← List.takeWhile_append_dropWhile (p := isPySpace)
          (l := List.drop 5 ((cs.dropWhile Char.isDigit).dropWhile isPySpace))]
        conv_lhs => rw [heqr4]
        conv_lhs => rw [← List.takeWhile_append_dropWhile (p := Char.isDigit) (l := r5tl)]
      · refine ⟨by simp, fun c hc => List.mem_takeWhile_imp hc, Nat.le_of_not_lt hlen,
          ne_nil_of_not_isEmpty hwsne, fun c hc => List.mem_takeWhile_imp hc,
          ne_nil_of_not_isEmpty hws2ne, fun c hc => List.mem_takeWhile_imp hc, hsign,
          ne_nil_of_not_isEmpty hd1ne, fun c hc => List.mem_takeWhile_imp hc, ?_⟩
        intro f hf
        exact Option.noConfusion hf
      · refine ⟨?_, ?_⟩
        · rw [hr6]
          exact rfl
        · intro _
          rw [hr6]
          exact noDigitHead_of_takeWhile_nil r7 hd2
    case isFalse hd2nil =>
      cases h
      dsimp only
      refine ⟨rfl, ?_, ?_, ?_⟩
      · simp only [EnergyTok.build]
        conv_lhs => rw [← List.takeWhile_append_dropWhile (p := Char.isDigit) (l := cs)]
        simp only [List.append_assoc]
        congr 1
        conv_lhs => rw [← List.takeWhile_append_dropWhile (p := isPySpace)
          (l := cs.dropWhile Char.isDigit)]
        congr 1
        conv_lhs => rw [← List.take_append_drop 5
          ((cs.dropWhile Char.isDigit).dropWhile isPySpace)]
        rw [hdelta]
        simp only [List.append_assoc, List.cons_append, List.append_nil]
        conv_lhs => rw [← List.takeWhile_append_dropWhile (p := isPySpace)
          (l := List.drop 5 ((cs.dropWhile Char.isDigit).dropWhile isPySpace))]
        conv_lhs => rw [heqr4]
        conv_lhs => rw [← List.takeWhile_append_dropWhile (p := Char.isDigit) (l := r5tl)]
        conv_lhs => rw [hr6]
        conv_lhs => rw [← List.takeWhile_append_dropWhile (p := Char.isDigit) (l := r7)]
      · refine ⟨by simp, fun c hc => List.mem_takeWhile_imp hc, Nat.le_of_not_lt hlen,
          ne_nil_of_not_isEmpty hwsne, fun c hc => List.mem_takeWhile_imp hc,
          ne_nil_of_not_isEmpty hws2ne, fun c hc => List.mem_takeWhile_imp hc, hsign,
          ne_nil_of_not_isEmpty hd1ne, fun c hc => List.mem_takeWhile_imp hc, ?_⟩
        intro f hf
        cases hf
        exact ⟨ne_nil_of_not_isEmpty hd2nil, fun c hc => List.mem_takeWhile_imp hc⟩
      · refine ⟨noDigitHead_dropWhile r7, ?_⟩
        intro hf
        exact Option.noConfusion hf
  case h_2 hnotdot =>
    cases h
    dsimp only
    refine ⟨rfl, ?_, ?_, ?_⟩
    · simp only [EnergyTok.build]
      conv_lhs => rw [← List.takeWhile_append_dropWhile (p := Char.isDigit) (l := cs)]
      simp only [List.append_assoc]
      congr 1
      conv_lhs => rw [← List.takeWhile_append_dropWhile (p := isPySpace)
        (l := cs.dropWhile Char.isDigit)]
      congr 1
      conv_lhs => rw [← List.take_append_drop 5
        ((cs.dropWhile Char.isDigit).dropWhile isPySpace)]
      rw [hdelta]
      simp only [List.append_assoc, List.cons_append, List.append_nil]
      conv_lhs => rw [← List.takeWhile_append_dropWhile (p := isPySpace)
        (l := List.drop 5 ((cs.dropWhile Char.isDigit).dropWhile isPySpace))]
      conv_lhs => rw [heqr4]
      conv_lhs => rw [← List.takeWhile_append_dropWhile (p := Char.isDigit) (l := r5tl)]
    · refine ⟨by simp, fun c hc => List.mem_takeWhile_imp hc, Nat.le_of_not_lt hlen,
        ne_nil_of_not_isEmpty hwsne, fun c hc => List.mem_takeWhile_imp hc,
        ne_nil_of_not_isEmpty hws2ne, fun c hc => List.mem_takeWhile_imp hc, hsign,
        ne_nil_of_not_isEmpty hd1ne, fun c hc => List.mem_takeWhile_imp hc, ?_⟩
      intro f hf
      exact Option.noConfusion hf
    · refine ⟨noDigitHead_dropWhile r5tl, ?_⟩
      intro _
      split
      · rename_i r7x heq
        exact (hnotdot r7x heq).elim
      · trivial

theorem matchEnergy_eq_matchBody (s : List Char)
    (hhead : ∀ x xs, s = x :: xs → x ≠ '>') : matchEnergy s = matchBody s := by
  match s with
  | [] => rfl
  | [a] => rfl
  | a :: b :: r =>
    simp only [matchEnergy]
    rw [if_neg]
    intro hand
    exact hhead a (b :: r) rfl hand.1

theorem matchBody_build_turnOff (ds wtl rest : List Char) (w0 : Char)
    (hds : ∀ c ∈ ds, c.isDigit = true) (hlen : ds.length ≤ 10)
    (hws1 : ∀ c ∈ w0 :: wtl, isPySpace c = true) :
    matchBody (ds ++ (w0 :: wtl) ++ "TurnOff".data ++ rest) =
      some ⟨none, ds, w0 :: wtl, .turnOff, rest⟩ := by
  have hw0 : isPySpace w0 = true := hws1 w0 (List.mem_cons_self _ _)
  have hwtl : ∀ c ∈ wtl, isPySpace c = true :=
    fun c hc => hws1 c (List.mem_cons_of_mem _ hc)
  have hw0d : ¬ w0.isDigit = true := by
    rw [pySpace_not_digit hw0]
    simp
  simp only [List.append_assoc, List.cons_append]
  simp only [matchBody]
  rw [takeWhile_append_all _ hds, dropWhile_append_all _ hds,
    List.takeWhile_cons_of_neg hw0d, List.dropWhile_cons_of_neg hw0d]
  rw [if_neg (by simp only [List.append_nil]; omega)]
  rw [List.takeWhile_cons_of_pos hw0, List.dropWhile_cons_of_pos hw0,
    takeWhile_append_all _ hwtl, dropWhile_append_all _ hwtl,
    List.takeWhile_cons_of_neg (by decide), List.dropWhile_cons_of_neg (by decide)]
  simp only [List.append_nil, List.nil_append]
  rw [if_neg (by simp)]
  rfl

theorem takeWhile_digit_nil_of_noDigitHead (l : List Char) (h : noDigitHead l) :
    l.takeWhile Char.isDigit = [] := by
  cases l with
  | nil => rfl
  | cons a t =>
    exact List.takeWhile_cons_of_neg (by simp only [noDigitHead] at h; simp [h])

theorem dropWhile_digit_self_of_noDigitHead (l : List Char) (h : noDigitHead l) :
    l.dropWhile Char.isDigit = l := by
  cases l with
  | nil => rfl
  | cons a t =>
    exact List.dropWhile_cons_of_neg (by simp only [noDigitHead] at h; simp [h])

theorem matchBody_build_delta (ds wtl w2tl itl rest : List Char) (w0 w20 sgn i0 : Char)
    (fp : Option (List Char))
    (hds : ∀ c ∈ ds, c.isDigit = true) (hlen : ds.length ≤ 10)
    (hws1 : ∀ c ∈ w0 :: wtl, isPySpace c = true)
    (hws2 : ∀ c ∈ w20 :: w2tl, isPySpace c = true)
    (hsgn : sgn = '+' ∨ sgn = '-')
    (hipd : ∀ c ∈ i0 :: itl, c.isDigit = true)
    (hfp : ∀ f, fp = some f → f ≠ [] ∧ ∀ c ∈ f, c.isDigit = true)
    (hro : restOk (.delta (w20 :: w2tl) sgn (i0 :: itl) fp) rest) :
    matchBody (ds ++ (w0 :: wtl) ++
        (EnergyTok.delta (w20 :: w2tl) sgn (i0 :: itl) fp).build ++ rest) =
      some ⟨none, ds, w0 :: wtl, .delta (w20 :: w2tl) sgn (i0 :: itl) fp, rest⟩ := by
  have hw0 : isPySpace w0 = true := hws1 w0 (List.mem_cons_self _ _)
  have hwtl : ∀ c ∈ wtl, isPySpace c = true :=
    fun c hc => hws1 c (List.mem_cons_of_mem _ hc)
  have hw0d : ¬ w0.isDigit = true := by
    rw [pySpace_not_digit hw0]
    simp
  have hw20 : isPySpace w20 = true := hws2 w20 (List.mem_cons_self _ _)
  have hw2tl : ∀ c ∈ w2tl, isPySpace c = true :=
    fun c hc => hws2 c (List.mem_cons_of_mem _ hc)
  have hsgnps : ¬ isPySpace sgn = true := by
    rcases hsgn with h | h <;> subst h <;> decide
  have hi0 : i0.isDigit = true := hipd i0 (List.mem_cons_self _ _)
  have hitl : ∀ c ∈ itl, c.isDigit = true :=
    fun c hc => hipd c (List.mem_cons_of_mem _ hc)
  obtain ⟨hnd, hdot⟩ := hro
  cases fp with
  | none =>
    simp only [EnergyTok.build, List.append_assoc, List.cons_append, List.append_nil]
    simp only [matchBody]
    rw [takeWhile_append_all _ hds, dropWhile_append_all _ hds,
      List.takeWhile_cons_of_neg hw0d, List.dropWhile_cons_of_neg hw0d]
    rw [if_neg (by simp only [List.append_nil]; omega)]
    rw [List.takeWhile_cons_of_pos hw0, List.dropWhile_cons_of_pos hw0,
      takeWhile_append_all _ hwtl, dropWhile_append_all _ hwtl,
      List.takeWhile_cons_of_neg (by decide), List.dropWhile_cons_of_neg (by decide)]
    simp only [List.append_nil, List.nil_append]
    rw [if_neg (by simp)]
    rw [if_neg (by simp [List.take_succ_cons])]
    rw [if_pos (show List.take 5 ('D' :: 'e' :: 'l' :: 't' :: 'a' ::
        w20 :: (w2tl ++ sgn :: i0 :: (itl ++ rest))) = ['D', 'e', 'l', 't', 'a']
      from rfl)]
    rw [show List.drop 5 ('D' :: 'e' :: 'l' :: 't' :: 'a' ::
        w20 :: (w2tl ++ sgn :: i0 :: (itl ++ rest))) =
      w20 :: (w2tl ++ sgn :: i0 :: (itl ++ rest)) from rfl]
    rw [List.takeWhile_cons_of_pos hw20, List.dropWhile_cons_of_pos hw20,
      takeWhile_append_all _ hw2tl, dropWhile_append_all _ hw2tl,
      List.takeWhile_cons_of_neg hsgnps, List.dropWhile_cons_of_neg hsgnps]
    simp only [List.append_nil]
    rw [if_neg (by simp)]
    rw [if_pos hsgn]
    rw [List.takeWhile_cons_of_pos hi0, List.dropWhile_cons_of_pos hi0,
      takeWhile_append_all _ hitl, dropWhile_append_all _ hitl,
      takeWhile_digit_nil_of_noDigitHead rest hnd,
      dropWhile_digit_self_of_noDigitHead rest hnd]
    simp only [List.append_nil]
    rw [if_neg (by simp)]
    split
    · rename_i tl
      have hnd7 : noDigitHead tl := hdot rfl
      rw [if_pos (by rw [takeWhile_digit_nil_of_noDigitHead tl hnd7]; rfl)]
    · rfl
  | some f =>
    obtain ⟨hfne, hfd⟩ := hfp f rfl
    simp only [EnergyTok.build, List.append_assoc, List.cons_append, List.append_nil]
    simp only [matchBody]
    rw [takeWhile_append_all _ hds, dropWhile_append_all _ hds,
      List.takeWhile_cons_of_neg hw0d, List.dropWhile_cons_of_neg hw0d]
    rw [if_neg (by simp only [List.append_nil]; omega)]
    rw [List.takeWhile_cons_of_pos hw0, List.dropWhile_cons_of_pos hw0,
      takeWhile_append_all _ hwtl, dropWhile_append_all _ hwtl,
      List.takeWhile_cons_of_neg (by decide), List.dropWhile_cons_of_neg (by decide)]
    simp only [List.append_nil, List.nil_append]
    rw [if_neg (by simp)]
    rw [if_neg (by simp [List.take_succ_cons])]
    rw [if_pos (show List.take 5 ('D' :: 'e' :: 'l' :: 't' :: 'a' ::
        w20 :: (w2tl ++ sgn :: i0 :: (itl ++ '.' :: (f ++ rest)))) =
      ['D', 'e', 'l', 't', 'a'] from rfl)]
    rw [show List.drop 5 ('D' :: 'e' :: 'l' :: 't' :: 'a' ::
        w20 :: (w2tl ++ sgn :: i0 :: (itl ++ '.' :: (f ++ rest)))) =
      w20 :: (w2tl ++ sgn :: i0 :: (itl ++ '.' :: (f ++ rest))) from rfl]
    rw [List.takeWhile_cons_of_pos hw20, List.dropWhile_cons_of_pos hw20,
      takeWhile_append_all _ hw2tl, dropWhile_append_all _ hw2tl,
      List.takeWhile_cons_of_neg hsgnps, List.dropWhile_cons_of_neg hsgnps]
    simp only [List.append_nil]
    rw [if_neg (by simp)]
    rw [if_pos hsgn]
    rw [List.takeWhile_cons_of_pos hi0, List.dropWhile_cons_of_pos hi0,
      takeWhile_append_all _ hitl, dropWhile_append_all _ hitl,
      List.takeWhile_cons_of_neg (by decide), List.dropWhile_cons_of_neg (by decide)]
    simp only [List.append_nil]
    rw [if_neg (by simp)]
    split
    · rename_i hcon
      rw [takeWhile_append_all _ hfd] at hcon
      cases f with
      | nil => exact absurd rfl hfne
      | cons f0 ftl => simp at hcon
    · rw [takeWhile_append_all _ hfd, dropWhile_append_all _ hfd,
        takeWhile_digit_nil_of_noDigitHead rest hnd,
        dropWhile_digit_self_of_noDigitHead rest hnd]
      simp only [List.append_nil]

theorem pySpace_ne_gt {ch : Char} (h : isPySpace ch = true) : ch ≠ '>' := by
  simp only [isPySpace, Bool.or_eq_true, decide_eq_true_eq] at h
  rcases h with ((((h | h) | h) | h) | h) | h <;> subst h <;> decide

theorem digit_ne_gt {ch : Char} (h : ch.isDigit = true) : ch ≠ '>' := by
  intro he
  subst he
  exact Bool.noConfusion h

theorem matchBody_of_parts (tsDigits ws1 rest : List Char) (tok : EnergyTok)
    (hds : ∀ c ∈ tsDigits, c.isDigit = true) (hlen : tsDigits.length ≤ 10)
    (hws1ne : ws1 ≠ []) (hws1 : ∀ c ∈ ws1, isPySpace c = true)
    (htok : wfTok tok) (hro : restOk tok rest) :
    matchBody (tsDigits ++ ws1 ++ tok.build ++ rest) =
      some ⟨none, tsDigits, ws1, tok, rest⟩ := by
  cases ws1 with
  | nil => exact absurd rfl hws1ne
  | cons w0 wtl =>
    cases tok with
    | turnOff => exact matchBody_build_turnOff tsDigits wtl rest w0 hds hlen hws1
    | delta ws2 sgn ip fp =>
      obtain ⟨hws2ne, hws2, hsgn, hipne, hipd, hfp⟩ := htok
      cases ws2 with
      | nil => exact absurd rfl hws2ne
      | cons w20 w2tl =>
        cases ip with
        | nil => exact absurd rfl hipne
        | cons i0 itl =>
          exact matchBody_build_delta tsDigits wtl w2tl itl rest w0 w20 sgn i0 fp
            hds hlen hws1 hws2 hsgn hipd hfp hro

theorem matchEnergy_build_eq (m : RegexMatch) (hwf : wf m)
    (hro : restOk m.tok m.rest) : matchEnergy m.build = some m := by
  obtain ⟨hmk, hds, hlen, hws1ne, hws1, htok⟩ := hwf
  have hbody := matchBody_of_parts m.tsDigits m.ws1 m.rest m.tok hds hlen hws1ne hws1 htok hro
  cases m with
  | mk marker tsDigits ws1 tok rest =>
    dsimp only at hbody hds hlen hws1ne hws1 htok hro ⊢
    cases marker with
    | none =>
      simp only [RegexMatch.build, List.nil_append]
      rw [matchEnergy_eq_matchBody]
      · exact hbody
      · intro x xs hx
        cases tsDigits with
        | cons d dt =>
          simp only [List.cons_append] at hx
          injection hx with h1 h2
          rw [← h1]
          exact digit_ne_gt (hds d (List.mem_cons_self _ _))
        | nil =>
          cases ws1 with
          | nil => exact absurd rfl hws1ne
          | cons w0 wtl =>
            simp only [List.nil_append, List.cons_append] at hx
            injection hx with h1 h2
            rw [← h1]
            exact pySpace_ne_gt (hws1 w0 (List.mem_cons_self _ _))
    | some c =>
      have hc : isPySpace c = true := hmk c rfl
      simp only [RegexMatch.build, List.cons_append, List.nil_append]
      simp only [matchEnergy]
      rw [if_pos (by simp [hc])]
      rw [hbody]

theorem matchEnergy_some (s : List Char) (m : RegexMatch)
    (h : matchEnergy s = some m) :
    s = m.build ∧ wf m ∧ restOk m.tok m.rest := by
  cases s with
  | nil =>
    have hb := matchBody_some [] m (by simpa [matchEnergy] using h)
    refine ⟨?_, hb.2.2.1, hb.2.2.2⟩
    rw [RegexMatch.build, hb.1]
    simpa using hb.2.1
  | cons a tail =>
    cases tail with
    | nil =>
      have hb := matchBody_some [a] m (by simpa [matchEnergy] using h)
      refine ⟨?_, hb.2.2.1, hb.2.2.2⟩
      rw [RegexMatch.build, hb.1]
      simpa using hb.2.1
    | cons c r =>
      simp only [matchEnergy] at h
      split at h
      case isTrue hgt =>
        split at h
        case h_1 m2 hm2 =>
          cases h
          have hb := matchBody_some r m2 hm2
          obtain ⟨hmk2, heq2, hwf2, hro2⟩ := hb
          refine ⟨?_, ?_, hro2⟩
          · rw [RegexMatch.build]
            dsimp only
            rw [heq2, hgt.1]
            cases m2 with
            | mk marker2 ts2 ws2 tok2 rest2 =>
              dsimp only at hmk2 ⊢
              subst hmk2
              simp [RegexMatch.build]
          · obtain ⟨_, hb2, hb3, hb4, hb5, hb6⟩ := hwf2
            exact ⟨fun c2 hc2 => by cases hc2; exact hgt.2, hb2, hb3, hb4, hb5, hb6⟩
        case h_2 hm2 =>
          have hb := matchBody_some (a :: c :: r) m h
          refine ⟨?_, hb.2.2.1, hb.2.2.2⟩
          rw [RegexMatch.build, hb.1]
          simpa using hb.2.1
      case isFalse hgt =>
        have hb := matchBody_some (a :: c :: r) m h
        refine ⟨?_, hb.2.2.1, hb.2.2.2⟩
        rw [RegexMatch.build, hb.1]
        simpa using hb.2.1

theorem containsSub_nil_pat : ∀ l : List Char, containsSub [] l = true
  | [] => rfl
  | _ :: _ => rfl

theorem isPrefixList_append (pat : List Char) :
    ∀ s t : List Char, isPrefixList pat s = true → isPrefixList pat (s ++ t) = true := by
  induction pat with
  | nil => intro s t _; rfl
  | cons p pt ih =>
    intro s t h
    cases s with
    | nil => exact Bool.noConfusion h
    | cons b bs =>
      simp only [isPrefixList, Bool.and_eq_true] at h
      simp only [List.cons_append, isPrefixList, Bool.and_eq_true]
      exact ⟨h.1, ih bs t h.2⟩

theorem containsSub_append_right (pat s t : List Char)
    (h : containsSub pat s = true) : containsSub pat (s ++ t) = true := by
  induction s with
  | nil =>
    cases pat with
    | nil => exact containsSub_nil_pat t
    | cons p pt => exact Bool.noConfusion h
  | cons b bs ih =>
    simp only [containsSub, Bool.or_eq_true] at h
    simp only [List.cons_append, containsSub, Bool.or_eq_true]
    rcases h with h | h
    · exact Or.inl (isPrefixList_append pat (b :: bs) t h)
    · exact Or.inr (ih h)

theorem isPrefixList_self_append :
    ∀ l t : List Char, isPrefixList l (l ++ t) = true := by
  intro l
  induction l with
  | nil => intro t; rfl
  | cons a as ih =>
    intro t
    simp only [List.cons_append, isPrefixList, Bool.and_eq_true]
    exact ⟨by simp, ih t⟩

theorem containsSub_middle (pat : List Char) :
    ∀ pre post : List Char, containsSub pat (pre ++ (pat ++ post)) = true := by
  intro pre
  induction pre with
  | nil =>
    intro post
    cases pat with
    | nil => exact containsSub_nil_pat post
    | cons p pt =>
      simp only [List.nil_append, containsSub, Bool.or_eq_true]
      exact Or.inl (isPrefixList_self_append (p :: pt) post)
  | cons a pr ih =>
    intro post
    simp only [List.cons_append, containsSub, Bool.or_eq_true]
    exact Or.inr (ih post)

theorem containsSub_head_skip (p0 : Char) (pr : List Char) :
    ∀ w t : List Char, (∀ ch ∈ w, ch ≠ p0) →
      containsSub (p0 :: pr) (w ++ t) = containsSub (p0 :: pr) t := by
  intro w
  induction w with
  | nil => intro t _; rfl
  | cons a w2 ih =>
    intro t h
    have ha : a ≠ p0 := h a (List.mem_cons_self _ _)
    simp only [List.cons_append, containsSub, isPrefixList, Bool.or_eq_true,
      List.append_eq]
    rw [ih t (fun ch hc => h ch (List.mem_cons_of_mem _ hc))]
    have : (decide (p0 = a) && isPrefixList pr (w2 ++ t)) = false := by
      simp [Ne.symm ha]
    rw [this]
    simp

theorem containsSub_false_of_no_head (p0 : Char) (pr w : List Char)
    (h : ∀ ch ∈ w, ch ≠ p0) : containsSub (p0 :: pr) w = false := by
  have h2 := containsSub_head_skip p0 pr w [] h
  rw [List.append_nil] at h2
  rw [h2]
  rfl

theorem pySpace_ne_T {ch : Char} (h : isPySpace ch = true) : ch ≠ 'T' := by
  simp only [isPySpace, Bool.or_eq_true, decide_eq_true_eq] at h
  rcases h with ((((h | h) | h) | h) | h) | h <;> subst h <;> decide

theorem digit_ne_T {ch : Char} (h : ch.isDigit = true) : ch ≠ 'T' := by
  intro he
  subst he
  exact Bool.noConfusion h

theorem mem_build_delta_ne_T (m : RegexMatch) (hwf : wf m) (ws2 : List Char)
    (sgn : Char) (ip : List Char) (fp : Option (List Char))
    (htok : m.tok = .delta ws2 sgn ip fp) (hrest : m.rest = []) :
    ∀ ch ∈ m.build, ch ≠ 'T' := by
  obtain ⟨hmk, hds, _, _, hws1, htokwf⟩ := hwf
  intro ch hch
  rw [htok] at htokwf
  obtain ⟨_, hws2, hsgn, _, hipd, hfp⟩ := htokwf
  simp only [RegexMatch.build, EnergyTok.build, htok, hrest] at hch
  rcases List.mem_append.1 hch with h | h
  swap
  · exact absurd h (List.not_mem_nil ch)
  rcases List.mem_append.1 h with h | h
  swap
  · -- token part
    rcases List.mem_append.1 h with h | h
    · rcases List.mem_append.1 h with h | h
      · rcases (by simpa using h :
          ch = 'D' ∨ ch = 'e' ∨ ch = 'l' ∨ ch = 't' ∨ ch = 'a') with
          h2 | h2 | h2 | h2 | h2 <;> subst h2 <;> decide
      · exact pySpace_ne_T (hws2 ch h)
    · rcases List.mem_cons.1 h with h2 | h2
      · subst h2
        rcases hsgn with h3 | h3 <;> subst h3 <;> decide
      · rcases List.mem_append.1 h2 with h3 | h3
        · exact digit_ne_T (hipd ch h3)
        · cases fp with
          | none => exact absurd h3 (List.not_mem_nil ch)
          | some f =>
            rcases List.mem_cons.1 h3 with h4 | h4
            · subst h4; decide
            · exact digit_ne_T ((hfp f rfl).2 ch h4)
  rcases List.mem_append.1 h with h | h
  swap
  · exact pySpace_ne_T (hws1 ch h)
  rcases List.mem_append.1 h with h | h
  swap
  · exact digit_ne_T (hds ch h)
  · -- marker part
    cases hmkc : m.marker with
    | none => rw [hmkc] at h; exact absurd h (List.not_mem_nil ch)
    | some mc =>
      rw [hmkc] at h
      rcases (by simpa using h : ch = '>' ∨ ch = mc) with h2 | h2
      · subst h2; decide
      · subst h2; exact pySpace_ne_T (hmk ch (by rw [hmkc]))

theorem build_append_rest (m : RegexMatch) (t : List Char) (h : m.rest = []) :
    m.build ++ t = RegexMatch.build { m with rest := t } := by
  cases m with
  | mk marker ts ws1 tok rest =>
    dsimp only at h
    subst h
    simp [RegexMatch.build, List.append_assoc]

theorem containsSub_turnOff_build (marker : Option Char) (ts ws1 rest : List Char) :
    containsSub "TurnOff".data
      (RegexMatch.build ⟨marker, ts, ws1, .turnOff, rest⟩) = true := by
  have h := containsSub_middle "TurnOff".data
    ((match marker with | none => [] | some c => ['>', c]) ++ ts ++ ws1) rest
  simpa [RegexMatch.build, EnergyTok.build, List.append_assoc] using h

theorem containsSub_delta_build (marker : Option Char)
    (ts ws1 ws2 ip rest : List Char) (sgn : Char) (fp : Option (List Char)) :
    containsSub "Delta".data
      (RegexMatch.build ⟨marker, ts, ws1, .delta ws2 sgn ip fp, rest⟩) = true := by
  have h := containsSub_middle "Delta".data
    ((match marker with | none => [] | some c => ['>', c]) ++ ts ++ ws1)
    (ws2 ++ sgn :: (ip ++ (match fp with | none => [] | some f => '.' :: f)) ++ rest)
  simpa [RegexMatch.build, EnergyTok.build, List.append_assoc, List.cons_append] using h

/-- C2 (amended): parsing is determined by the matched prefix as long as the
trailing text cannot extend the matched numeral (`restOk`) and does not
contain the substring `"TurnOff"`; a `TurnOff`-token line is unaffected by
any trailing text, while a `Delta` line whose non-extending trailing text
contains `"TurnOff"` is stored as an off-event with the same timestamp and
delta `0`. -/
theorem C2_prefix_amended (w t : List Char) (m : RegexMatch)
    (hm : matchEnergy w = some m) (hrest : m.rest = []) :
    (m.tok = .turnOff → processChars (w ++ t) = processChars w) ∧
    (∀ ws2 sgn ip fp, m.tok = .delta ws2 sgn ip fp → restOk m.tok t →
      (containsSub "TurnOff".data t = false →
        processChars (w ++ t) = processChars w) ∧
      (containsSub "TurnOff".data t = true → m.tsDigits ≠ [] →
        processChars (w ++ t) = .ok (some (renderTs m.tsDigits ++ ":" ++ "0",
          EnergyConsumptionLog.init ((digitsToNat m.tsDigits : ℚ)) none false)))) := by
  obtain ⟨hbuild, hwf, _⟩ := matchEnergy_some w m hm
  have hext : restOk m.tok t → matchEnergy (w ++ t) = some { m with rest := t } := by
    intro hrot
    rw [hbuild, build_append_rest m t hrest]
    exact matchEnergy_build_eq _ hwf hrot
  constructor
  · intro htok
    have hrotT : restOk m.tok t := by
      rw [htok]
      trivial
    have hme := hext hrotT
    have hcw : containsSub "TurnOff".data w = true := by
      rw [hbuild, show m = ⟨m.marker, m.tsDigits, m.ws1, m.tok, m.rest⟩ from rfl, htok]
      exact containsSub_turnOff_build m.marker m.tsDigits m.ws1 m.rest
    have hcwt : containsSub "TurnOff".data (w ++ t) = true :=
      containsSub_append_right _ _ _ hcw
    simp only [processChars, hme, hm, hcw, hcwt]
    simp
  · intro ws2 sgn ip fp htok hrot
    have hme := hext hrot
    have hnoT : ∀ ch ∈ w, ch ≠ 'T' := by
      rw [hbuild]
      exact mem_build_delta_ne_T m hwf ws2 sgn ip fp htok hrest
    have hTw : containsSub "TurnOff".data w = false :=
      containsSub_false_of_no_head 'T' "urnOff".data w hnoT
    have hTskip : containsSub "TurnOff".data (w ++ t) = containsSub "TurnOff".data t :=
      containsSub_head_skip 'T' "urnOff".data w t hnoT
    have hDw : containsSub "Delta".data w = true := by
      rw [hbuild, show m = ⟨m.marker, m.tsDigits, m.ws1, m.tok, m.rest⟩ from rfl, htok]
      exact containsSub_delta_build m.marker m.tsDigits m.ws1 ws2 ip m.rest sgn fp
    have hDwt : containsSub "Delta".data (w ++ t) = true :=
      containsSub_append_right _ _ _ hDw
    constructor
    · intro hct
      have hTwt : containsSub "TurnOff".data (w ++ t) = false := by
        rw [hTskip, hct]
      simp only [processChars, hme, hm, hTw, hTwt, hDw, hDwt, htok]
    · intro hct htsne
      have hTwt : containsSub "TurnOff".data (w ++ t) = true := by
        rw [hTskip, hct]
      have hemp : m.tsDigits.isEmpty = false := by
        cases h2 : m.tsDigits with
        | nil => exact absurd h2 htsne
        | cons a l => rfl
      simp only [processChars, hme, hTwt, hemp]
      simp

theorem C2_prefix_amended_witness :
    processChars ("5 Delta +0.5".data ++ "=====".data) =
      processChars "5 Delta +0.5".data ∧
    processChars ("5 Delta +0.5".data ++ " TurnOff".data) =
      .ok (some (renderTs ['5'] ++ ":" ++ "0",
        EnergyConsumptionLog.init ((digitsToNat ['5'] : ℚ)) none false)) :=
  have hm : matchEnergy "5 Delta +0.5".data =
      some ⟨none, ['5'], [' '], .delta [' '] '+' ['0'] (some ['5']), []⟩ := by decide
  ⟨((C2_prefix_amended "5 Delta +0.5".data "=====".data _ hm rfl).2
      [' '] '+' ['0'] (some ['5']) rfl
      ⟨rfl, fun h => absurd h (by decide)⟩).1 (by decide),
   ((C2_prefix_amended "5 Delta +0.5".data " TurnOff".data _ hm rfl).2
      [' '] '+' ['0'] (some ['5']) rfl
      ⟨rfl, fun h => absurd h (by decide)⟩).2 (by decide) (by decide)⟩
